import Mathlib

/-!
Verification of the secure-indexes implementation (Go): a shallow embedding of
the Bloom filter (bloomFilter package), the cryptographic utilities
(cryptoUtils package), the index builder (siBuild main), the index/key codec
(CSV + hex), and the search server request handler (siSearchServer).

Conventions of the embedding:
* Bytes are natural numbers (kept < 256 by construction or hypothesis);
  32-bit and 64-bit machine words are naturals reduced by explicit `% 2 ^ 32`
  or `% 2 ^ 64` where overflow can occur.
* Go run-time panics (index/modulo on an empty filter, negative allocation)
  and `os.Exit(1)` calls (the `errorCheck` helper) are modelled as `Option`
  results: `none` means the process faults or exits.
* The OS random source is a parameter `rng : ℕ → ℕ` (reduced mod 256);
  file-system reads on the server are a parameter `String → Except String _`.
* Floating-point sizing expressions (`math.Log`, `math.Log2`, `math.Round`)
  are modelled over the reals with exact `Real.log` and `round`; every
  concrete value proved about them is far from a rounding boundary.
-/

/-! ## SHA-256 and HMAC-SHA-256 (Go crypto/sha256, crypto/hmac) -/

/-- Reduce to a 32-bit word. -/
def w32 (x : ℕ) : ℕ := x % 4294967296

/-- Right-rotation of a 32-bit word by `n` bits. -/
def rotr32 (n x : ℕ) : ℕ := w32 (x / 2 ^ n + x % 2 ^ n * 2 ^ (32 - n))

/-- Logical right shift of a 32-bit word. -/
def shr32 (n x : ℕ) : ℕ := x / 2 ^ n

/-- SHA-256 round constants (fractional parts of cube roots of the first
64 primes). -/
def sha256K : List ℕ :=
  [1116352408, 1899447441, 3049323471, 3921009573, 961987163,
   1508970993, 2453635748, 2870763221, 3624381080, 310598401,
   607225278, 1426881987, 1925078388, 2162078206, 2614888103,
   3248222580, 3835390401, 4022224774, 264347078, 604807628,
   770255983, 1249150122, 1555081692, 1996064986, 2554220882,
   2821834349, 2952996808, 3210313671, 3336571891, 3584528711,
   113926993, 338241895, 666307205, 773529912, 1294757372,
   1396182291, 1695183700, 1986661051, 2177026350, 2456956037,
   2730485921, 2820302411, 3259730800, 3345764771, 3516065817,
   3600352804, 4094571909, 275423344, 430227734, 506948616,
   659060556, 883997877, 958139571, 1322822218, 1537002063,
   1747873779, 1955562222, 2024104815, 2227730452, 2361852424,
   2428436474, 2756734187, 3204031479, 3329325298]

/-- SHA-256 initial hash state. -/
def sha256Start : List ℕ :=
  [1779033703, 3144134277, 1013904242, 2773480762,
   1359893119, 2600822924, 528734635, 1541459225]

/-- Big-endian 32-bit word from four bytes. -/
def be32 (a b c d : ℕ) : ℕ := ((a * 256 + b) * 256 + c) * 256 + d

/-- Split a byte list into big-endian 32-bit words. -/
def toWords : List ℕ → List ℕ
  | a :: b :: c :: d :: rest => be32 a b c d :: toWords rest
  | _ => []

/-- Big-endian bytes of a 32-bit word. -/
def be32Bytes (x : ℕ) : List ℕ :=
  [x / 2 ^ 24 % 256, x / 2 ^ 16 % 256, x / 2 ^ 8 % 256, x % 256]

/-- Big-endian bytes of a 64-bit length field. -/
def be64Bytes (x : ℕ) : List ℕ :=
  [x / 2 ^ 56 % 256, x / 2 ^ 48 % 256, x / 2 ^ 40 % 256, x / 2 ^ 32 % 256,
   x / 2 ^ 24 % 256, x / 2 ^ 16 % 256, x / 2 ^ 8 % 256, x % 256]

/-- SHA-256 small sigma 0. -/
def ssig0 (x : ℕ) : ℕ := rotr32 7 x ^^^ rotr32 18 x ^^^ shr32 3 x

/-- SHA-256 small sigma 1. -/
def ssig1 (x : ℕ) : ℕ := rotr32 17 x ^^^ rotr32 19 x ^^^ shr32 10 x

/-- SHA-256 big sigma 0. -/
def bsig0 (x : ℕ) : ℕ := rotr32 2 x ^^^ rotr32 13 x ^^^ rotr32 22 x

/-- SHA-256 big sigma 1. -/
def bsig1 (x : ℕ) : ℕ := rotr32 6 x ^^^ rotr32 11 x ^^^ rotr32 25 x

/-- SHA-256 choice function. -/
def shaCh (x y z : ℕ) : ℕ := x &&& y ^^^ ((4294967295 - x) &&& z)

/-- SHA-256 majority function. -/
def shaMaj (x y z : ℕ) : ℕ := x &&& y ^^^ (x &&& z) ^^^ (y &&& z)

/-- One step of the message-schedule extension. -/
def schedStep (w : List ℕ) : List ℕ :=
  w ++ [w32 (ssig1 (w.getD (w.length - 2) 0) + w.getD (w.length - 7) 0 +
             ssig0 (w.getD (w.length - 15) 0) + w.getD (w.length - 16) 0)]

/-- Full 64-word message schedule from a 16-word block. -/
def schedule (w : List ℕ) : List ℕ :=
  (List.range 48).foldl (fun acc _ => schedStep acc) w

/-- One SHA-256 compression round; the state is the eight words a..h. -/
def shaRound (st : List ℕ) (kw : ℕ × ℕ) : List ℕ :=
  match st with
  | [a, b, c, d, e, f, g, h] =>
    let t1 := h + bsig1 e + shaCh e f g + kw.1 + kw.2
    let t2 := bsig0 a + shaMaj a b c
    [w32 (t1 + t2), a, b, c, w32 (d + t1), e, f, g]
  | other => other

/-- Compress one 64-byte block into the running hash state. -/
def sha256Compress (h : List ℕ) (block : List ℕ) : List ℕ :=
  let ws := schedule (toWords block)
  let st := (sha256K.zip ws).foldl shaRound h
  (h.zip st).map (fun p => w32 (p.1 + p.2))

/-- Split padded input into 64-byte blocks. -/
def chunks64 : List ℕ → List (List ℕ)
  | [] => []
  | a :: rest => (a :: rest).take 64 :: chunks64 ((a :: rest).drop 64)
termination_by l => l.length
decreasing_by simp [List.length_drop]; omega

/-- SHA-256 padding: a 0x80 byte, zeros to 56 mod 64, then the bit length. -/
def sha256Pad (msg : List ℕ) : List ℕ :=
  msg ++ 0x80 :: List.replicate ((119 - msg.length % 64) % 64) 0 ++
    be64Bytes (8 * msg.length)

/-- SHA-256 digest of a byte list. -/
def sha256 (msg : List ℕ) : List ℕ :=
  (((chunks64 (sha256Pad msg)).foldl sha256Compress sha256Start).map
    be32Bytes).flatten

/-- HMAC-SHA-256 (Go crypto/hmac over crypto/sha256, block size 64). -/
def hmacSha256 (key msg : List ℕ) : List ℕ :=
  let k0 := if 64 < key.length then sha256 key else key
  let kp := k0 ++ List.replicate (64 - k0.length) 0
  sha256 ((kp.map (fun b => b ^^^ 0x5c)) ++
          sha256 ((kp.map (fun b => b ^^^ 0x36)) ++ msg))

/-- UTF-8 bytes of a unicode code point (as Go string-to-byte conversion). -/
def utf8Bytes (c : ℕ) : List ℕ :=
  if c < 0x80 then [c]
  else if c < 0x800 then [0xc0 + c / 64, 0x80 + c % 64]
  else if c < 0x10000 then
    [0xe0 + c / 4096, 0x80 + c / 64 % 64, 0x80 + c % 64]
  else
    [0xf0 + c / 262144, 0x80 + c / 4096 % 64, 0x80 + c / 64 % 64, 0x80 + c % 64]

/-- UTF-8 byte list of a string, as Go's []byte(s). -/
def strBytes (s : String) : List ℕ :=
  s.toList.flatMap (fun c => utf8Bytes c.toNat)

/-- cryptoUtils.createHMAC: HMAC-SHA-256 tag of message `m` under key `k`. -/
def createHMAC (m : String) (k : List ℕ) : List ℕ :=
  hmacSha256 k (strBytes m)

/-! ## encoding/binary Uvarint (value component) -/

/-- Loop of Go's binary.Uvarint; `i` is the byte index, `s` the shift and
`x` the accumulator; returns the decoded value (0 on overflow, matching Go,
which returns 0 together with a negative byte count). -/
def uvarintGo : List ℕ → ℕ → ℕ → ℕ → ℕ
  | [], _, _, _ => 0
  | b :: rest, i, s, x =>
    if i = 10 then 0
    else if b < 0x80 then
      if i = 9 ∧ 1 < b then 0 else (x ||| b <<< s) % 2 ^ 64
    else uvarintGo rest (i + 1) (s + 7) ((x ||| (b &&& 0x7f) <<< s) % 2 ^ 64)

/-- Value decoded by Go's binary.Uvarint from the leading bytes of `buf`. -/
def goUvarint (buf : List ℕ) : ℕ := uvarintGo buf 0 0 0

/-- Whether Go's binary.Uvarint decodes `buf` without overflow (a terminator
byte within the first ten bytes, the tenth being at most 1). -/
def uvarintOkFrom : List ℕ → ℕ → Bool
  | [], _ => false
  | b :: rest, i =>
    if i = 10 then false
    else if b < 0x80 then !(decide (i = 9) && decide (1 < b))
    else uvarintOkFrom rest (i + 1)

/-- Top-level overflow-freedom test for binary.Uvarint. -/
def uvarintOk (buf : List ℕ) : Bool := uvarintOkFrom buf 0

/-- Modelled from the spec: the position function an implementer must
reproduce, per the spec's words — parse the leading bytes as a little-endian
base-128 varint (low 7 bits per byte, high bit as continuation flag) into a
64-bit value, saturating to the low 64 bits of the decoded prefix on
overflow. Used only to compare against the code's decoder. -/
def specVarint : List ℕ → ℕ → ℕ → ℕ
  | [], _, x => x
  | b :: rest, s, x =>
    if b < 0x80 then (x + b <<< s) % 2 ^ 64
    else specVarint rest (s + 7) ((x + (b &&& 0x7f) <<< s) % 2 ^ 64)

/-! ## Bloom filter (bloomFilter package) -/

/-- bloomFilter.findPositions: map codewords to filter positions.  Go's
`x % uint64(filterSize)` panics when the filter size is zero; a `none`
result models that run-time fault. -/
def findPositions (codewords : List (List ℕ)) (filterSize : ℕ) :
    Option (List ℕ) :=
  match codewords with
  | [] => some []
  | c :: rest =>
    if filterSize = 0 then none
    else (findPositions rest filterSize).map
      (fun ps => goUvarint c % filterSize :: ps)

/-- BloomFilter.Add: set the bit at each codeword position. -/
def bloomAdd (bits : List Bool) (codewords : List (List ℕ)) :
    Option (List Bool) :=
  (findPositions codewords bits.length).map
    (fun ps => ps.foldl (fun b i => b.set i true) bits)

/-- BloomFilter.Search: true iff every codeword position bit is set. -/
def bloomSearch (bits : List Bool) (codewords : List (List ℕ)) : Option Bool :=
  (findPositions codewords bits.length).map
    (fun ps => ps.all (fun i => bits.getD i false))

/-- BloomFilter.Create's size expression
`(float64(keywords) * scaling * float64(hashes)) / math.Log(2)` followed by
`math.Round`, over the reals.  In siBuild `hashes` receives the keyword
count and `keywords` the key count (the call site swaps the names; the
product is symmetric). -/
noncomputable def filterSize (hashes keywords : ℕ) (scaling : ℝ) : ℤ :=
  round ((keywords * scaling * hashes : ℝ) / Real.log 2)

/-- BloomFilter.Create: a zeroed bit array of the rounded optimal size. -/
noncomputable def bloomCreate (hashes keywords : ℕ) (scaling : ℝ) :
    List Bool :=
  List.replicate (filterSize hashes keywords scaling).toNat false

/-! ## cryptoUtils package -/

/-- cryptoUtils.GenerateRandomBytes drawing `n` bytes from the stream `rng`. -/
def randomBytes (n : ℕ) (rng : ℕ → ℕ) : List ℕ :=
  (List.range n).map (fun i => rng i % 256)

/-- The float `math.Round(math.Abs(-math.Log2(fp)))` of
cryptoUtils.GenerateHashKeys, over the reals. -/
noncomputable def kHashes (fp : ℝ) : ℤ := round |Real.logb 2 fp|

/-- cryptoUtils.GenerateHashKeys: the loop `for k := 0; k <= int(kHashes); k++`
draws one 16-byte key per iteration. -/
noncomputable def generateHashKeys (fp : ℝ) (rng : ℕ → ℕ) : List (List ℕ) :=
  (List.range ((kHashes fp).toNat + 1)).map
    (fun i => randomBytes 16 (fun j => rng (16 * i + j)))

/-- cryptoUtils.BuildTrapdoors: one HMAC tag of the keyword per hash key. -/
def buildTrapdoors (keyword : String) (keys : List (List ℕ)) : List (List ℕ) :=
  keys.map (fun k => createHMAC keyword k)

/-- cryptoUtils.BuildCodewords: one HMAC tag of the file name per trapdoor. -/
def buildCodewords (filename : String) (trapdoors : List (List ℕ)) :
    List (List ℕ) :=
  trapdoors.map (fun t => createHMAC filename t)

/-- cryptoUtils.SecureIndex.Blind: draw `(docSize - numKeywords) * numKeys`
random bytes and add that buffer to the filter as one single element.
Go's `make([]byte, n)` panics for negative `n`; `none` models the fault. -/
def blind (bits : List Bool) (numKeywords docSize numKeys : ℕ)
    (rng : ℕ → ℕ) : Option (List Bool) :=
  let b : ℤ := ((docSize : ℤ) - (numKeywords : ℤ)) * (numKeys : ℤ)
  if b < 0 then none else bloomAdd bits [randomBytes b.toNat rng]

/-! ## siBuild main: per-document index construction -/

/-- The per-keyword loop of siBuild main: `sIndex.Build` then
`sIndex.Index.Add(sIndex.Codewords)` for each keyword in order. -/
def insertKeywords (bits : List Bool) (fname : String)
    (keywords : List String) (keys : List (List ℕ)) : Option (List Bool) :=
  keywords.foldlM
    (fun b w => bloomAdd b (buildCodewords fname (buildTrapdoors w keys))) bits

/-- siBuild main for one document: Create, per-keyword insertion, Blind.
`docSize` is `len(text.RawText)`. -/
noncomputable def buildIndex (fname : String) (keywords : List String)
    (keys : List (List ℕ)) (docSize : ℕ) (rng : ℕ → ℕ) : Option (List Bool) :=
  (insertKeywords (bloomCreate keywords.length keys.length 1.5) fname
      keywords keys).bind
    (fun b => blind b keywords.length docSize keys.length rng)

/-! ## Index and key codec (hex + single-row CSV) -/

/-- Lowercase hex digit of a value below 16. -/
def hexDigit (n : ℕ) : Char :=
  if n < 10 then Char.ofNat (48 + n) else Char.ofNat (87 + n)

/-- encoding/hex EncodeToString over a byte list. -/
def hexEncode (bs : List ℕ) : List Char :=
  bs.flatMap (fun b => [hexDigit (b / 16), hexDigit (b % 16)])

/-- Value of one hex digit character (encoding/hex fromHexChar). -/
def hexDigitVal (c : Char) : Option ℕ :=
  if '0' ≤ c ∧ c ≤ '9' then some (c.toNat - 48)
  else if 'a' ≤ c ∧ c ≤ 'f' then some (c.toNat - 87)
  else if 'A' ≤ c ∧ c ≤ 'F' then some (c.toNat - 55)
  else none

/-- encoding/hex DecodeString: pairs of hex digits; odd length or a bad
digit is an error. -/
def hexDecode : List Char → Option (List ℕ)
  | [] => some []
  | [_] => none
  | a :: b :: rest => do
    let x ← hexDigitVal a
    let y ← hexDigitVal b
    let r ← hexDecode rest
    pure ((16 * x + y) :: r)

/-- Split a character list at every occurrence of `sep` (the field split the
CSV reader performs on an unquoted record). -/
def splitOnChar (sep : Char) : List Char → List (List Char)
  | [] => [[]]
  | c :: rest =>
    match splitOnChar sep rest with
    | [] => [[c]]
    | f :: fs => if c = sep then [] :: f :: fs else (c :: f) :: fs

/-- encoding/csv writer for one record whose fields contain no comma, quote
or line break (true of every field this program writes: lowercase hex and
the strings 0 and 1), as csv.Writer emits them unquoted. -/
def csvWriteRow (fields : List (List Char)) : List Char :=
  List.intercalate [','] fields

/-- encoding/csv reader over such content: one record per line, fields split
at commas; blank lines are skipped (csv.Reader ignores empty lines). -/
def csvReadRecords (lines : List (List Char)) : List (List (List Char)) :=
  (lines.filter (fun l => l ≠ [])).map (splitOnChar ',')

/-- siBuild writeKeyFile: hex-encode each key, write one CSV record. -/
def writeKeyfileModel (keys : List (List ℕ)) : List (List Char) :=
  [csvWriteRow (keys.map hexEncode)]

/-- Decode a sequence of hex fields into keys; any hex error aborts. -/
def decodeHexFields : List (List Char) → Option (List (List ℕ))
  | [] => some []
  | f :: fs => do
    let k ← hexDecode f
    let r ← decodeHexFields fs
    pure (k :: r)

/-- siBuild readKeyfile: for every record, hex-decode every field and append
it to the key list; any hex error aborts the read. -/
def readKeyfileModel (fileLines : List (List Char)) :
    Option (List (List ℕ)) :=
  decodeHexFields ((csvReadRecords fileLines).flatten)

/-- siBuild writeSecureIndexFile: 1 for a set bit, 0 for a clear bit, one
CSV record. -/
def writeIndexModel (bits : List Bool) : List (List Char) :=
  [csvWriteRow (bits.map (fun b => if b then ['1'] else ['0']))]

/-- siSearchServer ReadSecureIndexFile: every field other than the literal 0
becomes a set bit; records are concatenated. -/
def readIndexModel (fileLines : List (List Char)) : List Bool :=
  ((csvReadRecords fileLines).flatten).map (fun f => f ≠ ['0'])

/-! ## siSearchServer: request handling -/

/-- Suffix test used in place of strings.HasSuffix. -/
def endsIn (suffix l : List Char) : Bool :=
  List.isPrefixOf suffix.reverse l.reverse

/-- The characters of ".sindex". -/
def sindexPat : List Char := ['.', 's', 'i', 'n', 'd', 'e', 'x']

/-- Whether ".sindex" occurs as a substring; used to state when removing
every occurrence agrees with removing the trailing suffix. -/
def hasSindex : List Char → Bool
  | [] => false
  | c :: rest => List.isPrefixOf sindexPat (c :: rest) || hasSindex rest

/-- Scanning loop of strings.Replace(s, ".sindex", "", -1): delete every
non-overlapping occurrence, scanning left to right, skipping past each
deleted occurrence.  The fuel argument (instantiated with the list length,
which bounds the number of steps) keeps the recursion structural. -/
def stripAux : ℕ → List Char → List Char
  | _, [] => []
  | 0, l => l
  | fuel + 1, c :: rest =>
    if List.isPrefixOf sindexPat (c :: rest) then stripAux fuel (rest.drop 6)
    else c :: stripAux fuel rest

/-- strings.Replace(s, ".sindex", "", -1). -/
def stripSindex (l : List Char) : List Char := stripAux l.length l

/-- The server's base-name extraction: split the path at backslashes when
one occurs, else at slashes, and take the last component. -/
def baseName (file : List Char) : List Char :=
  (splitOnChar (if file.contains '\\' then '\\' else '/') file).getLastD []

/-- The document identifier the server derives from an index path:
base name with every ".sindex" occurrence removed. -/
def recoverId (file : List Char) : List Char := stripSindex (baseName file)

/-- String form of `recoverId`. -/
def recoverIdStr (file : String) : String := (recoverId file.toList).asString

/-- The per-request directory scan of handleConnection.  `readIndex` stands
for ReadSecureIndexFile on the server's file system; `errorCheck` on a read
error calls os.Exit(1), and a Search on an empty filter with a nonempty
codeword tuple panics — both are `none` (the server process dies). -/
def searchIndexes (files : List String)
    (readIndex : String → Except String (List Bool))
    (trapdoors : List (List ℕ)) (acc : List String) : Option (List String) :=
  match files with
  | [] => some acc
  | f :: rest =>
    if endsIn sindexPat f.toList then
      match readIndex f with
      | Except.error _ => none
      | Except.ok si =>
        match bloomSearch si (buildCodewords (recoverIdStr f) trapdoors) with
        | none => none
        | some true => searchIndexes rest readIndex trapdoors
            (acc ++ [recoverIdStr f])
        | some false => searchIndexes rest readIndex trapdoors acc
    else searchIndexes rest readIndex trapdoors acc

/-- Outcome of one received trapdoor message on a connection. -/
inductive RequestOutcome where
  | closed : RequestOutcome
  | reply : List String → RequestOutcome
  | crash : RequestOutcome
deriving DecidableEq, Repr

/-- handleConnection on one decoded message: a JSON null decodes to a nil
slice and closes the connection; otherwise the directory is scanned and the
matching identifiers are returned (`crash` models os.Exit / panic). -/
def handleRequest (files : List String)
    (readIndex : String → Except String (List Bool))
    (trapdoors : Option (List (List ℕ))) : RequestOutcome :=
  match trapdoors with
  | none => RequestOutcome.closed
  | some t =>
    match searchIndexes files readIndex t [] with
    | none => RequestOutcome.crash
    | some rs => RequestOutcome.reply rs

/-- Identifier list of the index files in a directory listing. -/
def sindexIds (files : List String) : List String :=
  (files.filter (fun f => endsIn sindexPat f.toList)).map recoverIdStr

/-- Number of positions at which two bit arrays differ. -/
def diffCount : List Bool → List Bool → ℕ
  | [], _ => 0
  | _, [] => 0
  | a :: as', b :: bs' => (if a = b then 0 else 1) + diffCount as' bs'

/-! ## Bloom filter lemmas -/

theorem findPositions_of_pos (cws : List (List ℕ)) (m : ℕ) (hm : m ≠ 0) :
    findPositions cws m = some (cws.map (fun c => goUvarint c % m)) := by
  induction cws with
  | nil => rfl
  | cons c rest ih =>
    rw [findPositions, ih]
    simp [hm]

theorem foldl_set_length (ps : List ℕ) (bits : List Bool) :
    (ps.foldl (fun b i => b.set i true) bits).length = bits.length := by
  induction ps generalizing bits with
  | nil => rfl
  | cons p ps ih => simpa using ih (bits.set p true)

theorem getD_set_true (bits : List Bool) (j i : ℕ)
    (h : bits.getD i false = true) :
    (bits.set j true).getD i false = true := by
  rcases eq_or_ne j i with rfl | hne
  · rcases lt_or_ge j bits.length with hlt | hge
    · simp [List.getD_eq_getElem?_getD, List.getElem?_set_eq_of_lt _ hlt]
    · rwa [List.set_eq_of_length_le hge]
  · rwa [List.getD_eq_getElem?_getD, List.getElem?_set_ne hne,
      ← List.getD_eq_getElem?_getD]

theorem foldl_set_mono (ps : List ℕ) (bits : List Bool) (i : ℕ)
    (h : bits.getD i false = true) :
    (ps.foldl (fun b j => b.set j true) bits).getD i false = true := by
  induction ps generalizing bits with
  | nil => exact h
  | cons p ps ih => exact ih (bits.set p true) (getD_set_true bits p i h)

theorem foldl_set_sets (ps : List ℕ) (bits : List Bool) (p : ℕ)
    (hp : p ∈ ps) (hlt : p < bits.length) :
    (ps.foldl (fun b j => b.set j true) bits).getD p false = true := by
  induction ps generalizing bits with
  | nil => cases hp
  | cons q qs ih =>
    rcases List.mem_cons.mp hp with rfl | hmem
    · refine foldl_set_mono qs (bits.set p true) p ?_
      simp [List.getD_eq_getElem?_getD, List.getElem?_set_eq_of_lt _ hlt]
    · exact ih (bits.set q true) hmem (by simpa using hlt)

theorem bloomAdd_some (bits : List Bool) (cws : List (List ℕ))
    (hm : bits.length ≠ 0) :
    ∃ bits', bloomAdd bits cws = some bits' ∧ bits'.length = bits.length ∧
      (∀ i, bits.getD i false = true → bits'.getD i false = true) ∧
      ∀ p ∈ cws.map (fun c => goUvarint c % bits.length),
        bits'.getD p false = true := by
  have heq : bloomAdd bits cws =
      some ((cws.map (fun c => goUvarint c % bits.length)).foldl
        (fun b i => b.set i true) bits) := by
    rw [bloomAdd, findPositions_of_pos cws bits.length hm, Option.map_some']
  refine ⟨_, heq, ?_, ?_, ?_⟩
  · exact foldl_set_length _ bits
  · exact fun i h => foldl_set_mono _ bits i h
  · intro p hp
    refine foldl_set_sets _ bits p hp ?_
    rcases List.mem_map.mp hp with ⟨c, _, rfl⟩
    exact Nat.mod_lt _ (Nat.pos_of_ne_zero hm)

theorem bloomSearch_eq_true (bits : List Bool) (cws : List (List ℕ))
    (hm : bits.length ≠ 0)
    (h : ∀ p ∈ cws.map (fun c => goUvarint c % bits.length),
      bits.getD p false = true) :
    bloomSearch bits cws = some true := by
  simp only [bloomSearch, findPositions_of_pos cws bits.length hm, Option.map_some']
  simpa [List.all_eq_true] using h

/-! ## Builder lemmas -/

theorem insertKeywords_spec (fname : String) (keys : List (List ℕ))
    (keywords : List String) (bits : List Bool) (hm : bits.length ≠ 0) :
    ∃ bits', insertKeywords bits fname keywords keys = some bits' ∧
      bits'.length = bits.length ∧
      (∀ i, bits.getD i false = true → bits'.getD i false = true) ∧
      ∀ w ∈ keywords, ∀ p ∈ (buildCodewords fname (buildTrapdoors w keys)).map
          (fun c => goUvarint c % bits.length), bits'.getD p false = true := by
  induction keywords generalizing bits with
  | nil => exact ⟨bits, rfl, rfl, fun _ h => h, by simp⟩
  | cons w0 rest ih =>
    obtain ⟨b1, hb1, hlen1, hmono1, hset1⟩ :=
      bloomAdd_some bits (buildCodewords fname (buildTrapdoors w0 keys)) hm
    obtain ⟨b2, hb2, hlen2, hmono2, hset2⟩ := ih b1 (hlen1 ▸ hm)
    refine ⟨b2, ?_, hlen2.trans hlen1, fun i h => hmono2 i (hmono1 i h), ?_⟩
    · simp only [insertKeywords, List.foldlM_cons, hb1, Option.bind_eq_bind,
        Option.some_bind]
      exact hb2
    · intro w hw p hp
      rcases List.mem_cons.mp hw with rfl | hmem
      · exact hmono2 p (hset1 p hp)
      · exact hset2 w hmem p (by rwa [hlen1])

theorem blind_some (bits : List Bool) (n L k : ℕ) (rng : ℕ → ℕ)
    (hnL : n ≤ L) (hm : bits.length ≠ 0) :
    ∃ bits', blind bits n L k rng = some bits' ∧
      bits'.length = bits.length ∧
      (∀ i, bits.getD i false = true → bits'.getD i false = true) := by
  obtain ⟨b', hb', hlen, hmono, _⟩ :=
    bloomAdd_some bits [randomBytes (((L : ℤ) - (n : ℤ)) * (k : ℤ)).toNat rng] hm
  refine ⟨b', ?_, hlen, hmono⟩
  have hpos : ¬ ((L : ℤ) - (n : ℤ)) * (k : ℤ) < 0 := by
    push_neg
    have h1 : (0 : ℤ) ≤ (L : ℤ) - (n : ℤ) := by
      have := Int.ofNat_le.mpr hnL
      omega
    exact mul_nonneg h1 (Int.natCast_nonneg k)
  simpa [blind, hpos] using hb'

theorem filterSize_toNat_ne_zero (n k : ℕ) (hn : 1 ≤ n) (hk : 1 ≤ k) :
    (filterSize n k 1.5).toNat ≠ 0 := by
  have hlog : 0 < Real.log 2 := Real.log_pos (by norm_num)
  have hlog1 : Real.log 2 ≤ 1 :=
    le_of_lt (lt_trans Real.log_two_lt_d9 (by norm_num))
  have hn' : (1 : ℝ) ≤ (n : ℕ) := by exact_mod_cast hn
  have hk' : (1 : ℝ) ≤ (k : ℕ) := by exact_mod_cast hk
  have hx : (3 / 2 : ℝ) ≤ ((k : ℝ) * 1.5 * (n : ℝ)) / Real.log 2 := by
    rw [le_div_iff₀ hlog]
    nlinarith
  have hround : 1 ≤ filterSize n k 1.5 := by
    unfold filterSize
    rw [round_eq]
    refine Int.le_floor.mpr ?_
    push_cast
    linarith
  omega

/-- Claim C1: for every document built with at least one extracted keyword
(and a non-empty key schedule, with the blinding precondition
`n ≤ len(RawText)` that any completed build satisfies), recomputing the
codewords for any inserted keyword `w` — HMAC of the keyword under each hash
key, then HMAC of the base file name under each resulting tag — and running
BloomFilter.Search on the built index returns true: no false negatives. -/
theorem noFalseNegatives (fname : String) (keywords : List String)
    (keys : List (List ℕ)) (docSize : ℕ) (rng : ℕ → ℕ) (w : String)
    (hw : w ∈ keywords) (hk : keys ≠ []) (hL : keywords.length ≤ docSize) :
    ∃ bits, buildIndex fname keywords keys docSize rng = some bits ∧
      bloomSearch bits (buildCodewords fname (buildTrapdoors w keys)) =
        some true := by
  have hkw : keywords ≠ [] := by
    rintro rfl
    cases hw
  have hm0 : (bloomCreate keywords.length keys.length 1.5).length ≠ 0 := by
    rw [bloomCreate, List.length_replicate]
    exact filterSize_toNat_ne_zero _ _ (List.length_pos.mpr hkw)
      (List.length_pos.mpr hk)
  obtain ⟨b1, h1, hlen1, _hmono1, hset1⟩ :=
    insertKeywords_spec fname keys keywords _ hm0
  obtain ⟨b2, h2, hlen2, hmono2⟩ :=
    blind_some b1 keywords.length docSize keys.length rng hL (by rwa [hlen1])
  refine ⟨b2, ?_, ?_⟩
  · rw [buildIndex, h1]
    exact h2
  · refine bloomSearch_eq_true b2 _ (by rw [hlen2, hlen1]; exact hm0) ?_
    intro p hp
    apply hmono2
    apply hset1 w hw
    rwa [hlen2, hlen1] at hp

/-- Concrete witness for noFalseNegatives: its hypotheses hold at the
instance below and the theorem applies. -/
theorem noFalseNegatives_witness :
    ("w" ∈ ["w"] ∧ ([[0]] : List (List ℕ)) ≠ [] ∧
      (["w"] : List String).length ≤ 1) ∧
    ∃ bits, buildIndex "a" ["w"] [[0]] 1 (fun _ => 0) = some bits ∧
      bloomSearch bits (buildCodewords "a" (buildTrapdoors "w" [[0]])) =
        some true :=
  ⟨⟨by decide, by decide, by decide⟩,
   noFalseNegatives "a" ["w"] [[0]] 1 (fun _ => 0) "w" (by decide) (by decide)
     (by decide)⟩

/-! ## Key-count and sizing facts -/

theorem kHashes_hundredth : kHashes 0.01 = 7 := by
  have hlog2 : 0 < Real.log 2 := Real.log_pos (by norm_num)
  have hlow : 13 * Real.log 2 ≤ 2 * Real.log 100 := by
    have h := (Real.log_le_log_iff (by positivity) (by positivity)).mpr
      (show ((2 : ℝ) ^ (13 : ℕ)) ≤ ((100 : ℝ) ^ (2 : ℕ)) by norm_num)
    rw [Real.log_pow, Real.log_pow] at h
    push_cast at h
    linarith
  have hhigh : 2 * Real.log 100 < 15 * Real.log 2 := by
    have h := Real.log_lt_log (by positivity)
      (show ((100 : ℝ) ^ (2 : ℕ)) < ((2 : ℝ) ^ (15 : ℕ)) by norm_num)
    rw [Real.log_pow, Real.log_pow] at h
    push_cast at h
    linarith
  have habs : |Real.logb 2 (0.01 : ℝ)| = Real.log 100 / Real.log 2 := by
    have h100 : Real.log (0.01 : ℝ) = -Real.log 100 := by
      rw [show (0.01 : ℝ) = (100 : ℝ)⁻¹ by norm_num, Real.log_inv]
    rw [Real.logb, h100, neg_div, abs_neg,
      abs_of_nonneg (div_nonneg (Real.log_nonneg (by norm_num)) hlog2.le)]
  have hq1 : (13 / 2 : ℝ) ≤ Real.log 100 / Real.log 2 := by
    rw [le_div_iff₀ hlog2]
    linarith
  have hq2 : Real.log 100 / Real.log 2 < 15 / 2 := by
    rw [div_lt_iff₀ hlog2]
    linarith
  rw [kHashes, habs, round_eq]
  refine Int.floor_eq_iff.mpr ⟨?_, ?_⟩
  · push_cast
    linarith
  · push_cast
    linarith

/-- Claim C2: at the failing input p = 0.01 the generation loop
`for k := 0; k <= int(kHashes); k++` runs eight times (an off-by-one against
the code's own comment, which says it creates `k = -log2(p)` keys), so the
generated key set has exactly 8 independent 16-byte (128-bit) keys — not the
7 the claim states. -/
theorem generateHashKeys_count (rng : ℕ → ℕ) :
    (generateHashKeys 0.01 rng).length = 8 ∧
    ∀ key ∈ generateHashKeys 0.01 rng, key.length = 16 := by
  constructor
  · simp [generateHashKeys, kHashes_hundredth]
  · intro key hkey
    rcases List.mem_map.mp hkey with ⟨i, _, rfl⟩
    simp [randomBytes]

theorem filterSize_example : filterSize 3 7 1.5 = 45 := by
  have hlog2 : 0 < Real.log 2 := Real.log_pos (by norm_num)
  have hlo : (0.6931471803 : ℝ) < Real.log 2 := Real.log_two_gt_d9
  have hhi : Real.log 2 < 0.6931471808 := Real.log_two_lt_d9
  have hq1 : (44.5 : ℝ) ≤ 31.5 / Real.log 2 := by
    rw [le_div_iff₀ hlog2]
    nlinarith
  have hq2 : (31.5 : ℝ) / Real.log 2 < 45.5 := by
    rw [div_lt_iff₀ hlog2]
    nlinarith
  rw [filterSize, round_eq,
    show (((7 : ℕ) : ℝ) * 1.5 * ((3 : ℕ) : ℝ)) = 31.5 by norm_num]
  refine Int.floor_eq_iff.mpr ⟨?_, ?_⟩
  · push_cast
    linarith
  · push_cast
    linarith

/-- Claim C3 counterexample: with n = 3 keywords, k = 7 hashes and scaling
s = 1.5 the code allocates round(31.5 / ln 2) = 45 bits, while the claim's
formula ceil(31.5 / ln 2) gives 46. -/
theorem create_sizing_cex :
    (bloomCreate 3 7 1.5).length = 45 ∧
    ⌈((3 : ℝ) * 1.5 * 7) / Real.log 2⌉ = 46 := by
  have hlog2 : 0 < Real.log 2 := Real.log_pos (by norm_num)
  have hlo : (0.6931471803 : ℝ) < Real.log 2 := Real.log_two_gt_d9
  have hhi : Real.log 2 < 0.6931471808 := Real.log_two_lt_d9
  constructor
  · rw [bloomCreate, List.length_replicate, filterSize_example]
    rfl
  · have hq1 : (45 : ℝ) < ((3 : ℝ) * 1.5 * 7) / Real.log 2 := by
      rw [lt_div_iff₀ hlog2]
      nlinarith
    have hq2 : ((3 : ℝ) * 1.5 * 7) / Real.log 2 ≤ 46 := by
      rw [div_le_iff₀ hlog2]
      nlinarith
    refine Int.ceil_eq_iff.mpr ⟨?_, ?_⟩
    · push_cast
      linarith
    · push_cast
      linarith

/-- Claim C3 amended: Create allocates exactly round((n·s·k)/ln 2) bits —
the integer within one half of the real-valued optimum, obtained from
math.Round, not a ceiling — and 45 bits (not 46) in the n = 3, k = 7,
s = 1.5 example. -/
theorem create_sizing_round (hashes keywords : ℕ) (scaling : ℝ)
    (_hk : 1 ≤ keywords) (hs : 0 < scaling) :
    |(((bloomCreate hashes keywords scaling).length : ℕ) : ℝ) -
      ((keywords : ℝ) * scaling * (hashes : ℝ)) / Real.log 2| ≤ 1 / 2 ∧
    (bloomCreate 3 7 1.5).length = 45 := by
  have hlog2 : 0 < Real.log 2 := Real.log_pos (by norm_num)
  have hx : (0 : ℝ) ≤ ((keywords : ℝ) * scaling * (hashes : ℝ)) / Real.log 2 := by
    apply div_nonneg _ hlog2.le
    positivity
  constructor
  · have hr : 0 ≤ filterSize hashes keywords scaling := by
      rw [filterSize, round_eq]
      refine Int.le_floor.mpr ?_
      push_cast
      linarith
    have hcast : (((bloomCreate hashes keywords scaling).length : ℕ) : ℝ) =
        ((filterSize hashes keywords scaling : ℤ) : ℝ) := by
      rw [bloomCreate, List.length_replicate]
      exact_mod_cast congrArg (Int.cast : ℤ → ℝ) (Int.toNat_of_nonneg hr)
    rw [hcast, filterSize, abs_sub_comm]
    exact abs_sub_round _
  · rw [bloomCreate, List.length_replicate, filterSize_example]
    rfl

/-- Concrete witness for create_sizing_round: its hypotheses hold at the
instance below and the theorem applies. -/
theorem create_sizing_round_witness :
    ((1 ≤ 7) ∧ (0 : ℝ) < 1.5) ∧
    (|(((bloomCreate 3 7 1.5).length : ℕ) : ℝ) -
       (((7 : ℕ) : ℝ) * 1.5 * ((3 : ℕ) : ℝ)) / Real.log 2| ≤ 1 / 2 ∧
     (bloomCreate 3 7 1.5).length = 45) :=
  ⟨⟨by norm_num, by norm_num⟩,
   create_sizing_round 3 7 1.5 (by norm_num) (by norm_num)⟩

/-- Claim C4 counterexample: a filter created with n = 0 keywords has m = 0,
and Add and Search with a nonempty codeword tuple then fault on the
modulo-by-zero in findPositions (none = run-time panic) instead of being a
no-op and returning false. -/
theorem empty_filter_cex :
    bloomCreate 0 8 1.5 = [] ∧
    bloomAdd (bloomCreate 0 8 1.5) [[1]] = none ∧
    bloomSearch (bloomCreate 0 8 1.5) [[1]] = none := by
  have h0 : bloomCreate 0 8 1.5 = [] := by
    rw [bloomCreate, filterSize]
    simp
  refine ⟨h0, ?_, ?_⟩ <;> rw [h0] <;> rfl

/-- Claim C4 amended: with n = 0 the filter length is 0 for every key count
and scaling; Add and Search applied to the empty codeword tuple are no-ops
(Search returning true, not false), while applied to any nonempty tuple
both fault with Go's integer divide-by-zero panic. -/
theorem empty_filter_behavior (k : ℕ) (s : ℝ) (cws : List (List ℕ))
    (hcw : cws ≠ []) :
    (bloomCreate 0 k s).length = 0 ∧
    bloomAdd (bloomCreate 0 k s) [] = some (bloomCreate 0 k s) ∧
    bloomSearch (bloomCreate 0 k s) [] = some true ∧
    bloomAdd (bloomCreate 0 k s) cws = none ∧
    bloomSearch (bloomCreate 0 k s) cws = none := by
  have h0 : bloomCreate 0 k s = [] := by
    rw [bloomCreate, filterSize]
    simp
  rcases cws with _ | ⟨c, rest⟩
  · cases hcw rfl
  · rw [h0]
    exact ⟨rfl, rfl, rfl, rfl, rfl⟩

/-- Concrete witness for empty_filter_behavior: its hypothesis holds at the
instance below and the theorem applies. -/
theorem empty_filter_behavior_witness :
    (([[5]] : List (List ℕ)) ≠ []) ∧
    ((bloomCreate 0 7 1.5).length = 0 ∧
     bloomAdd (bloomCreate 0 7 1.5) [] = some (bloomCreate 0 7 1.5) ∧
     bloomSearch (bloomCreate 0 7 1.5) [] = some true ∧
     bloomAdd (bloomCreate 0 7 1.5) [[5]] = none ∧
     bloomSearch (bloomCreate 0 7 1.5) [[5]] = none) :=
  ⟨by decide, empty_filter_behavior 7 1.5 [[5]] (by decide)⟩

/-! ## Varint lemmas -/

theorem or_shiftLeft_eq_add (s x y : ℕ) (hx : x < 2 ^ s) :
    x ||| y <<< s = x + y <<< s := by
  apply Nat.eq_of_testBit_eq
  intro i
  rw [Nat.testBit_or, Nat.testBit_shiftLeft, Nat.shiftLeft_eq]
  rcases lt_or_ge i s with hi | hi
  · have hdb : decide (s ≤ i) = false := by
      simp
      omega
    rw [hdb, Bool.false_and, Bool.or_false, Nat.testBit_to_div_mod,
      Nat.testBit_to_div_mod]
    have hdecomp : y * 2 ^ s = y * 2 ^ (s - i) * 2 ^ i := by
      rw [mul_assoc, ← pow_add]
      congr 2
      omega
    rw [hdecomp, Nat.add_mul_div_right _ _ (Nat.two_pow_pos i)]
    have heven : y * 2 ^ (s - i) % 2 = 0 := by
      have h2 : (2 : ℕ) ∣ y * 2 ^ (s - i) :=
        Dvd.dvd.mul_left (dvd_pow_self 2 (by omega)) y
      omega
    have heq : (x / 2 ^ i + y * 2 ^ (s - i)) % 2 = x / 2 ^ i % 2 := by omega
    rw [heq]
  · have hxz : x.testBit i = false :=
      Nat.testBit_lt_two_pow
        (lt_of_lt_of_le hx (Nat.pow_le_pow_right (by norm_num) hi))
    have hdb : decide (s ≤ i) = true := by simp [hi]
    rw [hxz, hdb, Bool.true_and, Bool.false_or, Nat.testBit_to_div_mod,
      Nat.testBit_to_div_mod]
    have hdiv : (x + y * 2 ^ s) / 2 ^ i = y / 2 ^ (i - s) := by
      rw [show (2 : ℕ) ^ i = 2 ^ s * 2 ^ (i - s) by
            rw [← pow_add]
            congr 1
            omega,
        ← Nat.div_div_eq_div_mul, Nat.add_mul_div_right _ _ (Nat.two_pow_pos s),
        Nat.div_eq_of_lt hx, Nat.zero_add]
    rw [hdiv]

theorem uvarintGo_spec (buf : List ℕ) : ∀ (i x : ℕ), x < 2 ^ (7 * i) → i ≤ 9 →
    uvarintGo buf i (7 * i) x =
      if uvarintOkFrom buf i then specVarint buf (7 * i) x else 0 := by
  induction buf with
  | nil =>
    intro i x _ _
    simp [uvarintGo, uvarintOkFrom]
  | cons b rest ih =>
    intro i x hx hi
    have h10 : i ≠ 10 := by omega
    by_cases hb : b < 0x80
    · by_cases h91 : i = 9 ∧ 1 < b
      · rw [uvarintGo, if_neg h10, if_pos hb, if_pos h91, uvarintOkFrom,
          if_neg h10, if_pos hb]
        simp [h91.1, h91.2]
      · have hor := or_shiftLeft_eq_add (7 * i) x b hx
        have hok : uvarintOkFrom (b :: rest) i = true := by
          rw [uvarintOkFrom, if_neg h10, if_pos hb]
          simp
          by_cases h9 : i = 9
          · exact Or.inr (le_of_not_lt (fun hb1 => h91 ⟨h9, hb1⟩))
          · exact Or.inl h9
        rw [uvarintGo, if_neg h10, if_pos hb, if_neg h91, hok, if_pos rfl,
          specVarint, if_pos hb, hor]
    · have hor := or_shiftLeft_eq_add (7 * i) x (b &&& 0x7f) hx
      have hpow : 2 ^ (7 * (i + 1)) = 128 * 2 ^ (7 * i) := by
        rw [show 7 * (i + 1) = 7 + 7 * i by ring, pow_add]
        norm_num
      have hsum : x + (b &&& 0x7f) <<< (7 * i) < 2 ^ (7 * (i + 1)) := by
        rw [Nat.shiftLeft_eq, hpow]
        have hb7 : b &&& 0x7f ≤ 0x7f := Nat.and_le_right
        have hmul : (b &&& 0x7f) * 2 ^ (7 * i) ≤ 127 * 2 ^ (7 * i) :=
          Nat.mul_le_mul_right _ (by omega)
        nlinarith [Nat.two_pow_pos (7 * i)]
      rcases Nat.lt_or_ge i 9 with hi8 | hi9
      · have hmod : (x + (b &&& 0x7f) <<< (7 * i)) % 2 ^ 64 =
            x + (b &&& 0x7f) <<< (7 * i) :=
          Nat.mod_eq_of_lt (lt_of_lt_of_le hsum
            (Nat.pow_le_pow_right (by norm_num) (by omega)))
        have hrec := ih (i + 1) (x + (b &&& 0x7f) <<< (7 * i)) hsum (by omega)
        rw [uvarintGo, if_neg h10, if_neg hb, uvarintOkFrom, if_neg h10,
          if_neg hb, specVarint, if_neg hb, hor, hmod,
          show 7 * i + 7 = 7 * (i + 1) by ring, hrec]
      · have h9 : i = 9 := by omega
        subst h9
        have hL : uvarintGo rest 10 (7 * 9 + 7)
            ((x ||| (b &&& 0x7f) <<< (7 * 9)) % 2 ^ 64) = 0 := by
          rcases rest with _ | ⟨c, cs⟩
          · rw [uvarintGo]
          · rw [uvarintGo, if_pos rfl]
        have hR : uvarintOkFrom rest 10 = false := by
          rcases rest with _ | ⟨c, cs⟩
          · rw [uvarintOkFrom]
          · rw [uvarintOkFrom, if_pos rfl]
        rw [uvarintGo, if_neg h10, if_neg hb, uvarintOkFrom, if_neg h10,
          if_neg hb, hL, hR]
        simp

/-- Claim C5 counterexample: a codeword whose first ten bytes all carry the
continuation bit overflows binary.Uvarint, which yields 0 — the derived
position is 0 mod m — while the claim's saturating decoder yields the low 64
bits of the decoded prefix, here 1, so the claimed position would be
1 mod 2. -/
theorem position_overflow_cex :
    findPositions [0x81 :: (List.replicate 9 0x80 ++ [0x00])] 2 = some [0] ∧
    specVarint (0x81 :: (List.replicate 9 0x80 ++ [0x00])) 0 0 % 2 = 1 := by
  constructor <;> decide

/-- Claim C5 amended: for every codeword and filter size m ≥ 1, the position
used by both Add and Search is x mod m, where x is the little-endian
base-128 varint value of the leading bytes (low 7 bits per byte, high bit as
continuation flag, reduced to 64 bits) whenever the decoding terminates
within ten bytes without overflowing 64 bits; when it would overflow — or no
terminator byte exists — x is 0, not the low 64 bits of the decoded
prefix. -/
theorem position_characterization (c : List ℕ) (m : ℕ) (hm : m ≠ 0) :
    findPositions [c] m =
      some [(if uvarintOk c then specVarint c 0 0 else 0) % m] := by
  rw [findPositions_of_pos _ _ hm]
  have h := uvarintGo_spec c 0 0 (by simp) (by omega)
  simp only [Nat.mul_zero] at h
  rw [List.map_cons, List.map_nil, goUvarint, h, uvarintOk]

/-- Concrete witness for position_characterization: its hypothesis holds at
the instance below and the theorem applies. -/
theorem position_characterization_witness :
    ((2 : ℕ) ≠ 0) ∧
    findPositions [[0x96, 0x01]] 2 =
      some [(if uvarintOk [0x96, 0x01] then specVarint [0x96, 0x01] 0 0
             else 0) % 2] :=
  ⟨by decide, position_characterization [0x96, 0x01] 2 (by decide)⟩

/-! ## Blinding lemmas -/

theorem diffCount_self (bits : List Bool) : diffCount bits bits = 0 := by
  induction bits with
  | nil => rfl
  | cons a rest ih => simp [diffCount, ih]

theorem diffCount_set (bits : List Bool) (p : ℕ) :
    diffCount bits (bits.set p true) ≤ 1 := by
  induction bits generalizing p with
  | nil => exact Nat.zero_le 1
  | cons a rest ih =>
    rcases p with _ | p'
    · simp [List.set, diffCount, diffCount_self]
      split <;> omega
    · simpa [List.set, diffCount] using ih p'

theorem blind_toNat (n L k : ℕ) (hnL : n ≤ L) :
    (((L : ℤ) - (n : ℤ)) * (k : ℤ)).toNat = (L - n) * k := by
  have hd : (L : ℤ) - (n : ℤ) = ((L - n : ℕ) : ℤ) := by omega
  rw [hd, ← Int.natCast_mul, Int.toNat_natCast]

/-- Claim C6: after all keywords are inserted the builder computes
b = (L − n)·k, draws exactly b random bytes, performs exactly one Add of the
whole buffer as a single codeword-like element — deriving exactly one bit
position from it — and so changes at most one bit of the filter. -/
theorem blinding_single_add (bits : List Bool) (n L k : ℕ) (rng : ℕ → ℕ)
    (hnL : n ≤ L) (hm : bits ≠ []) :
    (randomBytes ((L - n) * k) rng).length = (L - n) * k ∧
    blind bits n L k rng = bloomAdd bits [randomBytes ((L - n) * k) rng] ∧
    (∃ ps, findPositions [randomBytes ((L - n) * k) rng] bits.length =
        some ps ∧ ps.length = 1) ∧
    ∀ bits', blind bits n L k rng = some bits' → diffCount bits bits' ≤ 1 := by
  have hmz : bits.length ≠ 0 := fun h => hm (List.length_eq_zero.mp h)
  have hneg : ¬ ((L : ℤ) - (n : ℤ)) * (k : ℤ) < 0 := by
    push_neg
    have h1 : (0 : ℤ) ≤ (L : ℤ) - (n : ℤ) := by
      have := Int.ofNat_le.mpr hnL
      omega
    exact mul_nonneg h1 (Int.natCast_nonneg k)
  have hblind : blind bits n L k rng =
      bloomAdd bits [randomBytes ((L - n) * k) rng] := by
    rw [blind]
    simp only [hneg, if_false]
    rw [blind_toNat n L k hnL]
  refine ⟨by simp [randomBytes], hblind, ?_, ?_⟩
  · exact ⟨_, findPositions_of_pos _ _ hmz, by simp⟩
  · intro bits' hsome
    rw [hblind, bloomAdd, findPositions_of_pos _ _ hmz] at hsome
    simp only [Option.map_some', Option.some.injEq, List.map_cons,
      List.map_nil, List.foldl_cons, List.foldl_nil] at hsome
    rw [← hsome]
    exact diffCount_set bits _

/-- Concrete witness for blinding_single_add: its hypotheses hold at the
instance below and the theorem applies. -/
theorem blinding_single_add_witness :
    ((1 : ℕ) ≤ 2 ∧ ([false] : List Bool) ≠ []) ∧
    ((randomBytes ((2 - 1) * 1) (fun _ => 0)).length = (2 - 1) * 1 ∧
     blind [false] 1 2 1 (fun _ => 0) =
       bloomAdd [false] [randomBytes ((2 - 1) * 1) (fun _ => 0)] ∧
     (∃ ps, findPositions [randomBytes ((2 - 1) * 1) (fun _ => 0)]
         ([false] : List Bool).length = some ps ∧ ps.length = 1) ∧
     ∀ bits', blind [false] 1 2 1 (fun _ => 0) = some bits' →
       diffCount [false] bits' ≤ 1) :=
  ⟨⟨by decide, by decide⟩,
   blinding_single_add [false] 1 2 1 (fun _ => 0) (by decide) (by decide)⟩

/-! ## Codec lemmas -/

theorem hexDigitVal_hexDigit : ∀ n, n < 16 → hexDigitVal (hexDigit n) = some n := by
  decide

theorem hexDigit_ne_comma : ∀ n, n < 16 → hexDigit n ≠ ',' := by
  decide

theorem hexDecode_hexEncode (bs : List ℕ) (h : ∀ b ∈ bs, b < 256) :
    hexDecode (hexEncode bs) = some bs := by
  induction bs with
  | nil => rfl
  | cons b rest ih =>
    have hb : b < 256 := h b (List.mem_cons_self b rest)
    have hrest := ih (fun x hx => h x (List.mem_cons_of_mem b hx))
    have heq : hexEncode (b :: rest) =
        hexDigit (b / 16) :: hexDigit (b % 16) :: hexEncode rest := by
      simp [hexEncode]
    rw [heq, hexDecode, hexDigitVal_hexDigit _ (by omega),
      hexDigitVal_hexDigit _ (by omega), hrest]
    simp [Nat.div_add_mod]

theorem comma_not_mem_hexEncode (k : List ℕ) (h : ∀ b ∈ k, b < 256) :
    ',' ∉ hexEncode k := by
  intro hc
  rw [hexEncode, List.mem_flatMap] at hc
  rcases hc with ⟨b, hbk, hbc⟩
  have hb : b < 256 := h b hbk
  rcases List.mem_cons.mp hbc with h1 | h1
  · exact hexDigit_ne_comma (b / 16) (by omega) h1.symm
  · rcases List.mem_cons.mp h1 with h2 | h2
    · exact hexDigit_ne_comma (b % 16) (by omega) h2.symm
    · exact absurd h2 (List.not_mem_nil ',')

theorem splitOnChar_ne_nil (sep : Char) (l : List Char) :
    splitOnChar sep l ≠ [] := by
  induction l with
  | nil => simp [splitOnChar]
  | cons c cs ih =>
    rcases h : splitOnChar sep cs with _ | ⟨f, fs⟩
    · exact absurd h ih
    · rw [splitOnChar, h]
      by_cases hc : c = sep <;> simp [hc]

theorem splitOnChar_no_sep (sep : Char) (f : List Char) (hf : sep ∉ f) :
    splitOnChar sep f = [f] := by
  induction f with
  | nil => rfl
  | cons c cs ih =>
    have hc : ¬ c = sep := fun h => hf (h ▸ List.mem_cons_self c cs)
    rw [splitOnChar, ih (fun h => hf (List.mem_cons_of_mem c h))]
    simp [hc]

theorem splitOnChar_append_cons (sep : Char) (f t : List Char)
    (hf : sep ∉ f) :
    splitOnChar sep (f ++ sep :: t) = f :: splitOnChar sep t := by
  induction f with
  | nil =>
    rcases hsp : splitOnChar sep t with _ | ⟨g, gs⟩
    · exact absurd hsp (splitOnChar_ne_nil sep t)
    · rw [List.nil_append, splitOnChar, hsp]
      simp
  | cons c cs ih =>
    have hc : ¬ c = sep := fun h => hf (h ▸ List.mem_cons_self c cs)
    rw [List.cons_append, splitOnChar,
      ih (fun h => hf (List.mem_cons_of_mem c h))]
    simp [hc]

theorem splitOnChar_intercalate (sep : Char) (fields : List (List Char))
    (hne : fields ≠ []) (hsep : ∀ f ∈ fields, sep ∉ f) :
    splitOnChar sep (List.intercalate [sep] fields) = fields := by
  induction fields with
  | nil => cases hne rfl
  | cons f rest ih =>
    rcases rest with _ | ⟨g, gs⟩
    · rw [show List.intercalate [sep] [f] = f by simp [List.intercalate]]
      exact splitOnChar_no_sep sep f (hsep f (List.mem_cons_self f []))
    · rw [show List.intercalate [sep] (f :: g :: gs) =
            f ++ sep :: List.intercalate [sep] (g :: gs) by
          simp [List.intercalate],
        splitOnChar_append_cons sep f _ (hsep f (List.mem_cons_self f _)),
        ih (by simp) (fun x hx => hsep x (List.mem_cons_of_mem f hx))]

theorem decodeHexFields_encode (keys : List (List ℕ))
    (h : ∀ k ∈ keys, ∀ b ∈ k, b < 256) :
    decodeHexFields (keys.map hexEncode) = some keys := by
  induction keys with
  | nil => rfl
  | cons k rest ih =>
    rw [List.map_cons, decodeHexFields,
      hexDecode_hexEncode k (h k (List.mem_cons_self k rest)),
      ih (fun x hx b hb => h x (List.mem_cons_of_mem k hx) b hb)]
    rfl

theorem csvWriteRow_keys_ne_nil (keys : List (List ℕ)) (h1 : keys ≠ [])
    (h2 : keys ≠ [[]]) : csvWriteRow (keys.map hexEncode) ≠ [] := by
  rcases keys with _ | ⟨k, rest⟩
  · cases h1 rfl
  · rcases rest with _ | ⟨k2, rest2⟩
    · have hk : k ≠ [] := fun h => h2 (by rw [h])
      rcases k with _ | ⟨b, bs⟩
      · cases hk rfl
      · rw [List.map_cons, List.map_nil, csvWriteRow,
          show List.intercalate [','] [hexEncode (b :: bs)] =
            hexEncode (b :: bs) by simp [List.intercalate]]
        simp [hexEncode]
    · rw [List.map_cons, List.map_cons, csvWriteRow,
        show List.intercalate [',']
            (hexEncode k :: hexEncode k2 :: List.map hexEncode rest2) =
          hexEncode k ++ ',' ::
            List.intercalate [','] (hexEncode k2 :: List.map hexEncode rest2)
          by simp [List.intercalate]]
      simp

theorem csvWriteRow_bits_ne_nil (bits : List Bool) (hb : bits ≠ []) :
    csvWriteRow (bits.map (fun b => if b then ['1'] else ['0'])) ≠ [] := by
  rcases bits with _ | ⟨b, rest⟩
  · cases hb rfl
  · rcases rest with _ | ⟨b2, rest2⟩
    · rw [List.map_cons, List.map_nil, csvWriteRow,
        show List.intercalate [','] [if b then ['1'] else ['0']] =
          if b then ['1'] else ['0'] by simp [List.intercalate]]
      cases b <;> simp
    · rw [List.map_cons, List.map_cons, csvWriteRow,
        show List.intercalate [',']
            ((if b then ['1'] else ['0']) :: (if b2 then ['1'] else ['0']) ::
              List.map (fun b => if b then ['1'] else ['0']) rest2) =
          (if b then ['1'] else ['0']) ++ ',' ::
            List.intercalate [','] ((if b2 then ['1'] else ['0']) ::
              List.map (fun b => if b then ['1'] else ['0']) rest2)
          by simp [List.intercalate]]
      simp

/-- Claim C7 amended: the key-schedule round-trip holds for every non-empty
ordered list of byte-string keys other than the single empty key (whose CSV
record is a blank line, which csv.Reader skips, so it decodes to the empty
key list); the bit-array round-trip holds as claimed for every m ≥ 1, bit
for bit, with order and bytes preserved. -/
theorem codec_roundtrip (keys : List (List ℕ)) (bits : List Bool)
    (hk1 : keys ≠ []) (hk2 : keys ≠ [[]])
    (hbytes : ∀ k ∈ keys, ∀ b ∈ k, b < 256) (hb : bits ≠ []) :
    readKeyfileModel (writeKeyfileModel keys) = some keys ∧
    readIndexModel (writeIndexModel bits) = bits := by
  constructor
  · have hline := csvWriteRow_keys_ne_nil keys hk1 hk2
    rw [readKeyfileModel, writeKeyfileModel, csvReadRecords,
      show ([csvWriteRow (keys.map hexEncode)].filter (fun l => l ≠ [])) =
        [csvWriteRow (keys.map hexEncode)] by simp [hline],
      List.map_cons, List.map_nil, List.flatten, csvWriteRow,
      splitOnChar_intercalate ',' (keys.map hexEncode) (by simp [hk1]) ?_]
    · rw [show List.map hexEncode keys ++ ([] : List (List (List Char))).flatten =
          List.map hexEncode keys by simp]
      exact decodeHexFields_encode keys hbytes
    · intro f hf
      rcases List.mem_map.mp hf with ⟨k, hk, rfl⟩
      exact comma_not_mem_hexEncode k (hbytes k hk)
  · have hline := csvWriteRow_bits_ne_nil bits hb
    rw [readIndexModel, writeIndexModel, csvReadRecords,
      show ([csvWriteRow (bits.map (fun b => if b then ['1'] else ['0']))].filter
          (fun l => l ≠ [])) =
        [csvWriteRow (bits.map (fun b => if b then ['1'] else ['0']))] by
          simp [hline],
      List.map_cons, List.map_nil, List.flatten, csvWriteRow,
      splitOnChar_intercalate ',' (bits.map (fun b => if b then ['1'] else ['0']))
        (by simp [hb]) ?_]
    · clear hline hb
      simp only [List.flatten_nil, List.append_nil, List.map_map]
      induction bits with
      | nil => rfl
      | cons b rest ih =>
        cases b <;> simp [Function.comp] at ih ⊢ <;> exact ih
    · intro f hf
      rcases List.mem_map.mp hf with ⟨b, _, rfl⟩
      cases b <;> decide

/-- Claim C7 counterexample: the key schedule consisting of one empty byte
string encodes to a blank CSV line, which the reader skips, so decoding
yields the empty key list rather than the original schedule. -/
theorem codec_roundtrip_cex :
    readKeyfileModel (writeKeyfileModel [[]]) = some [] ∧
    readKeyfileModel (writeKeyfileModel [[]]) ≠ some [[]] := by
  constructor <;> decide

/-- Concrete witness for codec_roundtrip: its hypotheses hold at the
instance below and the theorem applies. -/
theorem codec_roundtrip_witness :
    (([[17]] : List (List ℕ)) ≠ [] ∧ ([[17]] : List (List ℕ)) ≠ [[]] ∧
      (∀ k ∈ ([[17]] : List (List ℕ)), ∀ b ∈ k, b < 256) ∧
      ([true] : List Bool) ≠ []) ∧
    (readKeyfileModel (writeKeyfileModel [[17]]) = some [[17]] ∧
     readIndexModel (writeIndexModel [true]) = [true]) :=
  ⟨⟨by decide, by decide, by decide, by decide⟩,
   codec_roundtrip [[17]] [true] (by decide) (by decide) (by decide)
     (by decide)⟩

/-! ## Server id-recovery lemmas -/

theorem isPrefixOf_iff_exists (p l : List Char) :
    p.isPrefixOf l = true ↔ ∃ t, l = p ++ t := by
  induction p generalizing l with
  | nil =>
    simp [List.isPrefixOf]
  | cons a ps ih =>
    rcases l with _ | ⟨b, bs⟩
    · simp [List.isPrefixOf]
    · rw [List.isPrefixOf, Bool.and_eq_true, beq_iff_eq, ih]
      constructor
      · rintro ⟨rfl, t, rfl⟩
        exact ⟨t, rfl⟩
      · rintro ⟨t, ht⟩
        rw [List.cons_append] at ht
        injection ht with h1 h2
        exact ⟨h1.symm, t, h2⟩

theorem sindex_border_free :
    ∀ j, j < 7 → 1 ≤ j → (sindexPat.drop j).isPrefixOf sindexPat = false := by
  decide

theorem hasSindex_of_lead (u : List Char)
    (h : sindexPat.isPrefixOf u = true) : hasSindex u = true := by
  rcases u with _ | ⟨c, cs⟩
  · cases h
  · rw [hasSindex, h, Bool.true_or]

theorem not_lead_straddle (u : List Char) (hu : u ≠ [])
    (hnp : hasSindex u = false) :
    sindexPat.isPrefixOf (u ++ sindexPat) = false := by
  by_contra hcon
  rw [Bool.not_eq_false, isPrefixOf_iff_exists] at hcon
  rcases hcon with ⟨t, ht⟩
  rcases Nat.lt_or_ge u.length 7 with hlen | hlen
  · have hlen1 : 1 ≤ u.length := by
      rcases u with _ | _
      · cases hu rfl
      · simp
    have h2 := congrArg (List.drop u.length) ht
    rw [List.drop_left u sindexPat,
      List.drop_append_of_le_length (by simp [sindexPat]; omega)] at h2
    have hpre : (sindexPat.drop u.length).isPrefixOf sindexPat = true := by
      rw [isPrefixOf_iff_exists]
      exact ⟨t, h2⟩
    rw [sindex_border_free u.length hlen hlen1] at hpre
    cases hpre
  · have htake := congrArg (List.take 7) ht
    rw [show (7 : ℕ) = sindexPat.length from rfl, List.take_left,
      List.take_append_of_le_length (by simp [sindexPat]; omega)] at htake
    have hu7 : u = sindexPat ++ u.drop 7 := by
      conv_lhs => rw [← List.take_append_drop 7 u]
      rw [show List.take 7 u = sindexPat from htake]
    have hmem : hasSindex u = true := by
      apply hasSindex_of_lead
      rw [isPrefixOf_iff_exists]
      exact ⟨u.drop 7, hu7⟩
    rw [hmem] at hnp
    cases hnp

theorem stripAux_append (fuel : ℕ) (w : List Char)
    (hfuel : (w ++ sindexPat).length ≤ fuel) (hw : hasSindex w = false) :
    stripAux fuel (w ++ sindexPat) = w := by
  induction fuel generalizing w with
  | zero =>
    exfalso
    simp [sindexPat] at hfuel
  | succ fuel ih =>
    rcases w with _ | ⟨c, cs⟩
    · rw [List.nil_append,
        show sindexPat = '.' :: ['s', 'i', 'n', 'd', 'e', 'x'] from rfl,
        stripAux,
        if_pos (show List.isPrefixOf sindexPat
          ('.' :: ['s', 'i', 'n', 'd', 'e', 'x']) = true by decide)]
      show stripAux fuel [] = []
      cases fuel <;> rfl
    · have hw2 : hasSindex cs = false := by
        rw [hasSindex, Bool.or_eq_false_iff] at hw
        exact hw.2
      have hnp := not_lead_straddle (c :: cs) (by simp) hw
      rw [List.cons_append] at hnp
      rw [List.cons_append, stripAux]
      simp only [hnp, Bool.false_eq_true, if_false]
      rw [ih cs (by simp at hfuel ⊢; omega) hw2]

theorem stripSindex_append (w : List Char) (hw : hasSindex w = false) :
    stripSindex (w ++ sindexPat) = w := by
  exact stripAux_append _ w le_rfl hw

/-- Claim C9 counterexample: for the index file test/a.sindex.sindex the
claimed suffix-only removal would give the id a.sindex, but the server's
strings.Replace removes every occurrence and derives the id a. -/
theorem recover_id_cex :
    recoverIdStr "test/a.sindex.sindex" = "a" ∧
    recoverIdStr "test/a.sindex.sindex" ≠ "a.sindex" := by
  constructor <;> decide

/-- Claim C9 amended: the server derives id(d) by removing every occurrence
of ".sindex" from the index file's base name (strings.Replace with count
-1), not only from the end; whenever ".sindex" occurs in the base name only
as the trailing suffix, this coincides with the claimed suffix removal. -/
theorem recover_id_suffix (file : String) (w : List Char)
    (hbase : baseName file.toList = w ++ sindexPat)
    (hw : hasSindex w = false) :
    recoverIdStr file = w.asString := by
  rw [recoverIdStr, recoverId, hbase, stripSindex_append w hw]

/-- Concrete witness for recover_id_suffix: its hypotheses hold at the
instance below and the theorem applies. -/
theorem recover_id_suffix_witness :
    (baseName "test/a.sindex".toList = ['a'] ++ sindexPat ∧
      hasSindex ['a'] = false) ∧
    recoverIdStr "test/a.sindex" = (['a'] : List Char).asString :=
  ⟨⟨by decide, by decide⟩,
   recover_id_suffix "test/a.sindex" ['a'] (by decide) (by decide)⟩

/-! ## Server request-handling lemmas -/

theorem bloomSearch_nil_tuple (bits : List Bool) :
    bloomSearch bits [] = some true := by
  rfl

/-- Claim C8 counterexample: with two index files of which the first is
malformed and the second would match, the request does not skip the bad
document and search the rest — the whole process exits (none); only a
listing without the malformed file yields the surviving match. -/
theorem error_isolation_cex :
    searchIndexes ["test/a.sindex", "test/b.sindex"]
      (fun f => if f = "test/a.sindex" then Except.error "malformed CSV"
                else Except.ok [true]) [] [] = none ∧
    searchIndexes ["test/b.sindex"]
      (fun f => if f = "test/a.sindex" then Except.error "malformed CSV"
                else Except.ok [true]) [] [] = some ["b"] := by
  constructor <;> decide

/-- Claim C8 amended: the server's errorCheck calls os.Exit(1), so a
malformed index file (a read error) terminates the whole server process:
whenever any listed ".sindex" file fails to read, the request produces no
reply and no further documents are searched (and a JSON decode failure on
the trapdoor likewise exits the process rather than closing only that
connection). -/
theorem server_exit_on_bad_index (files : List String)
    (readIndex : String → Except String (List Bool))
    (tds : List (List ℕ)) (acc : List String)
    (h : ∃ f, f ∈ files ∧ endsIn sindexPat f.toList = true ∧
      ∀ si, readIndex f ≠ Except.ok si) :
    searchIndexes files readIndex tds acc = none := by
  induction files generalizing acc with
  | nil =>
    rcases h with ⟨f, hf, _⟩
    cases hf
  | cons f0 rest ih =>
    rcases h with ⟨f, hfmem, hfsuf, hferr⟩
    rw [searchIndexes]
    by_cases hsuf : endsIn sindexPat f0.toList = true
    · rw [if_pos hsuf]
      rcases hread : readIndex f0 with e | si
      · rfl
      · dsimp only
        rcases List.mem_cons.mp hfmem with rfl | hmem
        · exact absurd hread (hferr si)
        · rcases hsearch : bloomSearch si
              (buildCodewords (recoverIdStr f0) tds) with _ | b
          · rfl
          · rcases b with _ | _
            · exact ih _ ⟨f, hmem, hfsuf, hferr⟩
            · exact ih _ ⟨f, hmem, hfsuf, hferr⟩
    · rw [if_neg hsuf]
      rcases List.mem_cons.mp hfmem with rfl | hmem
      · exact absurd hfsuf hsuf
      · exact ih _ ⟨f, hmem, hfsuf, hferr⟩

/-- Concrete witness for server_exit_on_bad_index: its hypothesis holds at
the instance below and the theorem applies. -/
theorem server_exit_on_bad_index_witness :
    (∃ f, f ∈ ["test/a.sindex"] ∧ endsIn sindexPat f.toList = true ∧
      ∀ si, (fun _ => (Except.error "bad" : Except String (List Bool))) f ≠
        Except.ok si) ∧
    searchIndexes ["test/a.sindex"]
      (fun _ => (Except.error "bad" : Except String (List Bool))) [] [] =
      none :=
  ⟨⟨"test/a.sindex", by decide, by decide, fun si h => by cases h⟩,
   server_exit_on_bad_index ["test/a.sindex"]
     (fun _ => (Except.error "bad" : Except String (List Bool))) [] []
     ⟨"test/a.sindex", by decide, by decide, fun si h => by cases h⟩⟩

theorem searchIndexes_empty_tuple (files : List String)
    (readIndex : String → Except String (List Bool)) (acc : List String)
    (hok : ∀ f ∈ files, endsIn sindexPat f.toList = true →
      ∃ si, readIndex f = Except.ok si) :
    searchIndexes files readIndex [] acc = some (acc ++ sindexIds files) := by
  induction files generalizing acc with
  | nil => simp [searchIndexes, sindexIds]
  | cons f rest ih =>
    have hok2 : ∀ g ∈ rest, endsIn sindexPat g.toList = true →
        ∃ si, readIndex g = Except.ok si :=
      fun g hg => hok g (List.mem_cons_of_mem f hg)
    rw [searchIndexes]
    by_cases hsuf : endsIn sindexPat f.toList = true
    · rcases hok f (List.mem_cons_self f rest) hsuf with ⟨si, hsi⟩
      rw [if_pos hsuf, hsi]
      dsimp only
      rw [show bloomSearch si (buildCodewords (recoverIdStr f) []) =
        some true from rfl]
      dsimp only
      rw [ih _ hok2,
        show sindexIds (f :: rest) = recoverIdStr f :: sindexIds rest by
          rw [sindexIds, List.filter_cons, if_pos hsuf, List.map_cons,
            sindexIds]]
      simp
    · rw [if_neg hsuf, ih _ hok2,
        show sindexIds (f :: rest) = sindexIds rest by
          rw [sindexIds, List.filter_cons, if_neg hsuf, sindexIds]]

/-- Claim C10: Search over the empty codeword tuple returns true for every
filter, so a trapdoor vector that decodes to an empty (but non-null) list is
not treated as the termination sentinel: the handler runs the scan and every
readable index file is reported as a match (a JSON null, decoding to nil,
closes the connection instead). -/
theorem empty_tuple_matches_all (bits : List Bool) (files : List String)
    (readIndex : String → Except String (List Bool))
    (hok : ∀ f ∈ files, endsIn sindexPat f.toList = true →
      ∃ si, readIndex f = Except.ok si) :
    bloomSearch bits [] = some true ∧
    handleRequest files readIndex none = RequestOutcome.closed ∧
    handleRequest files readIndex (some []) =
      RequestOutcome.reply (sindexIds files) := by
  refine ⟨bloomSearch_nil_tuple bits, rfl, ?_⟩
  rw [handleRequest, searchIndexes_empty_tuple files readIndex [] hok]
  rw [List.nil_append]

/-- Concrete witness for empty_tuple_matches_all: its hypothesis holds at
the instance below and the theorem applies. -/
theorem empty_tuple_matches_all_witness :
    (∀ f ∈ ["test/a.sindex"], endsIn sindexPat f.toList = true →
      ∃ si, (fun _ => (Except.ok [true] : Except String (List Bool))) f =
        Except.ok si) ∧
    (bloomSearch [false] [] = some true ∧
     handleRequest ["test/a.sindex"]
       (fun _ => (Except.ok [true] : Except String (List Bool))) none =
       RequestOutcome.closed ∧
     handleRequest ["test/a.sindex"]
       (fun _ => (Except.ok [true] : Except String (List Bool))) (some []) =
       RequestOutcome.reply (sindexIds ["test/a.sindex"])) :=
  ⟨fun _ _ _ => ⟨[true], rfl⟩,
   empty_tuple_matches_all [false] ["test/a.sindex"]
     (fun _ => (Except.ok [true] : Except String (List Bool)))
     (fun _ _ _ => ⟨[true], rfl⟩)⟩
